import Mathlib

/-!
Verification of the streaming AI-chat / file-reconciler core of the repository
(`src/components/AIChat.tsx`, `src/pages/ProjectEditor.tsx`).

Shallow embedding conventions:
* JS strings are modelled as `List Char` (`Str` below); the line-splitting and
  trimming operations used by the code are defined on that representation.
* Raw HTTP body bytes are `List Nat` (each `< 256` where relevant).
* Platform builtins used by the code (`TextDecoder`, `String.prototype.trim`,
  `JSON.parse`, the action-block regex) are modelled explicitly below, each next
  to a comment naming the builtin it models.
* The Supabase `files` table is modelled as a list of records with the schema of
  the migration (`UNIQUE (project_id, path)` within the single project under
  consideration; `id` primary key).  `order by path ascending` is modelled by an
  insertion sort over a total lexicographic order on paths.
-/

abbrev Str := List Char

def str (s : String) : Str := s.toList

/-- JS whitespace set recognised by `String.prototype.trim` (ASCII whitespace,
NBSP, BOM and the Unicode space separators). Models the builtin. -/
def jsWhitespace : List Nat :=
  [9, 10, 11, 12, 13, 32, 0xA0, 0x1680, 0x2000, 0x2001, 0x2002, 0x2003, 0x2004,
   0x2005, 0x2006, 0x2007, 0x2008, 0x2009, 0x200A, 0x2028, 0x2029, 0x202F,
   0x205F, 0x3000, 0xFEFF]

def isJsWs (c : Char) : Bool := jsWhitespace.contains c.toNat

/-- Models `String.prototype.trim`. -/
def jsTrim (s : Str) : Str :=
  (s.dropWhile isJsWs).reverse.dropWhile isJsWs |>.reverse

/- ------------------------------------------------------------------ -/
/- ProjectEditor.tsx : file records, loadFiles, handleFileAction      -/
/- ------------------------------------------------------------------ -/

/-- A row of the `files` table as seen by `ProjectEditor.tsx` (the fields the
component reads and writes; timestamps are managed by the store and irrelevant
to the claims). -/
structure FileRecord where
  id : Nat
  path : Str
  content : Str
  language : Str
deriving DecidableEq, Repr

/-- The `FileAction` interface of `AIChat.tsx` (`type` is a string at runtime:
the TS union `"create" | "edit"` is erased). -/
structure FileAction where
  type : Str
  path : Str
  content : Str
  language : Str
deriving DecidableEq, Repr

/-- Total lexicographic comparison on paths, modelling the store's
`order("path", { ascending: true })` collation. -/
def leStr : Str → Str → Bool
  | [], _ => true
  | _ :: _, [] => false
  | a :: as, b :: bs => if a < b then true else if b < a then false else leStr as bs

def insertByPath (r : FileRecord) : List FileRecord → List FileRecord
  | [] => [r]
  | x :: xs => if leStr r.path x.path then r :: x :: xs else x :: insertByPath r xs

/-- The record list returned by `select * ... order by path ascending`. -/
def sortByPath : List FileRecord → List FileRecord
  | [] => []
  | x :: xs => insertByPath x (sortByPath xs)

/-- Local state of the `ProjectEditor` component together with the persisted
`files` table (`db`) it talks to.  `nextId` models the store's id generator. -/
structure EditorState where
  db : List FileRecord
  files : List FileRecord
  selectedFile : Option FileRecord
  nextId : Nat
deriving DecidableEq, Repr

/-- `loadFiles` (ProjectEditor.tsx lines 106-130): re-fetch the project's files
ordered by path, replace the local list wholesale, and select the first file
when none is selected yet. -/
def loadFiles (s : EditorState) : EditorState :=
  let data := sortByPath s.db
  { s with
    files := data
    selectedFile :=
      match s.selectedFile with
      | some f => some f
      | none => data.head? }

/-- `handleFileAction` (ProjectEditor.tsx lines 132-182).  The store's
`UNIQUE (project_id, path)` constraint makes `insert` fail on a duplicate path;
the component's `catch` then swallows the error before `loadFiles` runs, so the
state is returned unchanged in that case. -/
def handleFileAction (a : FileAction) (s : EditorState) : EditorState :=
  if a.type = str "create" then
    match s.files.find? (fun f => f.path = a.path) with
    | some existingFile =>
      let db' := s.db.map (fun r =>
        if r.id = existingFile.id then
          { r with content := a.content, language := a.language } else r)
      loadFiles { s with
        db := db'
        selectedFile := some { existingFile with content := a.content, language := a.language } }
    | none =>
      if s.db.any (fun r => r.path = a.path) then s
      else
        let newRec : FileRecord :=
          { id := s.nextId, path := a.path, content := a.content, language := a.language }
        loadFiles { s with
          db := s.db ++ [newRec]
          nextId := s.nextId + 1
          selectedFile := some newRec }
  else if a.type = str "edit" then
    match s.selectedFile with
    | some f =>
      let db' := s.db.map (fun r =>
        if r.id = f.id then { r with content := a.content } else r)
      loadFiles { s with
        db := db'
        selectedFile := some { f with content := a.content } }
    | none => loadFiles s
  else loadFiles s

/- ------------------------------------------------------------------ -/
/- AIChat.tsx : messages and the send guard                            -/
/- ------------------------------------------------------------------ -/

inductive Role
  | user
  | assistant
deriving DecidableEq, Repr

/-- The `Message` interface of `AIChat.tsx`. -/
structure Message where
  role : Role
  content : Str
deriving DecidableEq, Repr

/-- Component state relevant to `handleSend`'s entry guard. -/
structure ChatState where
  messages : List Message
  input : Str
  isLoading : Bool
deriving DecidableEq, Repr

/-- Result of attempting `handleSend` up to the point where the HTTP request is
issued: the state after the synchronous prologue, and whether a request was
issued at all. -/
structure SendOutcome where
  state : ChatState
  requested : Bool
deriving DecidableEq, Repr

/-- `handleSend`'s synchronous prologue (AIChat.tsx lines 36-42):
`if (!input.trim() || isLoading) return;` then optimistically append the user
turn, clear the input and set the loading flag before fetching. -/
def handleSendStart (s : ChatState) : SendOutcome :=
  if jsTrim s.input = [] ∨ s.isLoading then ⟨s, false⟩
  else
    ⟨{ messages := s.messages ++ [⟨Role.user, s.input⟩], input := [], isLoading := true }, true⟩

/-- Events of one chat panel's lifetime: a send attempt with the textarea set
to `input`, or completion of an in-flight stream (the `finally` block setting
`isLoading` back to `false`). -/
inductive ChatEvent
  | send (input : Str)
  | finish

/-- Interleaving semantics for a chat panel: the second component counts the
streams currently in flight. `finish` can only fire for an actual in-flight
stream. -/
def chatStep : ChatState × Nat → ChatEvent → ChatState × Nat
  | (s, n), ChatEvent.send i =>
    ((handleSendStart { s with input := i }).state,
      if (handleSendStart { s with input := i }).requested then n + 1 else n)
  | (s, n), ChatEvent.finish =>
    if n = 0 then (s, n) else ({ s with isLoading := false }, n - 1)

def chatRun (s : ChatState) (evs : List ChatEvent) : ChatState × Nat :=
  evs.foldl chatStep (s, 0)

/- ------------------------------------------------------------------ -/
/- Chunk decoder: models `TextDecoder` with `stream: true`            -/
/- ------------------------------------------------------------------ -/

/-- UTF-8 encoding of one scalar value (the byte representation the wire
carries for each character of the stream text). -/
def utf8EncodeChar (c : Char) : List Nat :=
  let n := c.toNat
  if n < 0x80 then [n]
  else if n < 0x800 then [0xC0 + n / 0x40, 0x80 + n % 0x40]
  else if n < 0x10000 then
    [0xE0 + n / 0x1000, 0x80 + (n / 0x40) % 0x40, 0x80 + n % 0x40]
  else
    [0xF0 + n / 0x40000, 0x80 + (n / 0x1000) % 0x40, 0x80 + (n / 0x40) % 0x40,
     0x80 + n % 0x40]

def utf8Encode (t : Str) : List Nat := (t.map utf8EncodeChar).flatten

def replChar : Char := Char.ofNat 0xFFFD

def isCont (b : Nat) : Bool := decide (0x80 ≤ b ∧ b < 0xC0)

/-- One step of the streaming UTF-8 decoder on a byte arriving with no
sequence in progress: ASCII is emitted, a stray continuation byte or an
out-of-range leader yields the replacement character, a leader opens a
pending sequence. -/
def stepEmpty (b : Nat) : Str × List Nat :=
  if b < 0x80 then ([Char.ofNat b], [])
  else if b < 0xC0 then ([replChar], [])
  else if b < 0xF8 then ([], [b])
  else ([replChar], [])

/-- One byte of `TextDecoder` state transition: `pend` is the incomplete
sequence carried so far (leader first).  A continuation byte extends or
completes it; a non-continuation byte flushes the incomplete sequence as one
replacement character (the maximal-subpart policy) and reprocesses the byte
fresh.  Sequences `TextDecoder` rejects as overlong or out of range are
modelled loosely as a decode of the raw value; the stream theorems only
exercise well-formed encodings produced by `utf8Encode`. -/
def stepByte (pend : List Nat) (b : Nat) : Str × List Nat :=
  match pend with
  | [] => stepEmpty b
  | l :: conts =>
    if isCont b then
      if l < 0xE0 then
        ([Char.ofNat ((l - 0xC0) * 0x40 + (b - 0x80))], [])
      else if l < 0xF0 then
        match conts with
        | [] => ([], [l, b])
        | c1 :: _ =>
          ([Char.ofNat ((l - 0xE0) * 0x1000 + (c1 - 0x80) * 0x40 + (b - 0x80))], [])
      else
        match conts with
        | [] => ([], [l, b])
        | [c1] => ([], [l, c1, b])
        | c1 :: c2 :: _ =>
          ([Char.ofNat ((l - 0xF0) * 0x40000 + (c1 - 0x80) * 0x1000 +
            (c2 - 0x80) * 0x40 + (b - 0x80))], [])
    else
      let r := stepEmpty b
      (replChar :: r.1, r.2)

/-- Models one `TextDecoder.decode(·, { stream: true })` call: consume the
chunk byte by byte from the decoder state `pend`, returning the decoded text
and the new deferred state (the trailing bytes of an incomplete multi-byte
sequence are kept for the next chunk, not dropped or mis-decoded). -/
def utf8DecLoop : List Nat → List Nat → Str × List Nat
  | pend, [] => ([], pend)
  | pend, b :: bs =>
    let st := stepByte pend b
    let r := utf8DecLoop st.2 bs
    (st.1 ++ r.1, r.2)

/-- Batch decode from a fresh decoder. -/
def utf8Dec (bs : List Nat) : Str × List Nat := utf8DecLoop [] bs

/- ------------------------------------------------------------------ -/
/- JSON: models `JSON.parse` and the property accesses of the code    -/
/- ------------------------------------------------------------------ -/

/-- JSON values as produced by `JSON.parse`.  A number keeps its source
lexeme: the exact double formatting JS would apply on coercion is out of scope
(the verified claims only involve string-valued deltas). -/
inductive Json
  | null
  | bool (b : Bool)
  | num (lexeme : Str)
  | strv (s : Str)
  | arr (elems : List Json)
  | obj (fields : List (Str × Json))

/-- JSON's own whitespace (what `JSON.parse` skips between tokens). -/
def skipWs (s : Str) : Str :=
  s.dropWhile (fun c => c = ' ' ∨ c = '\t' ∨ c = '\n' ∨ c = '\r')

def hexDigit (c : Char) : Option Nat :=
  if '0' ≤ c ∧ c ≤ '9' then some (c.toNat - 48)
  else if 'a' ≤ c ∧ c ≤ 'f' then some (c.toNat - 87)
  else if 'A' ≤ c ∧ c ≤ 'F' then some (c.toNat - 55)
  else none

def parseHex4 : Str → Option (Nat × Str)
  | a :: b :: c :: d :: rest =>
    match hexDigit a, hexDigit b, hexDigit c, hexDigit d with
    | some x, some y, some z, some w => some (((x * 16 + y) * 16 + z) * 16 + w, rest)
    | _, _, _, _ => none
  | _ => none

def consFst (c : Char) : Option (Str × Str) → Option (Str × Str)
  | some (t, r) => some (c :: t, r)
  | none => none

/-- Body of a JSON string literal (after the opening quote), with the escape
sequences `JSON.parse` accepts.  A lone surrogate from a `\u` escape — which a
JS string can hold but a Unicode scalar cannot — is modelled as the replacement
character. -/
def parseStrBody : Nat → Str → Option (Str × Str)
  | 0, _ => none
  | fuel + 1, s =>
    match s with
    | [] => none
    | c :: cs =>
      if c = '"' then some ([], cs)
      else if c = '\\' then
        match cs with
        | [] => none
        | e :: cs' =>
          if e = '"' then consFst '"' (parseStrBody fuel cs')
          else if e = '\\' then consFst '\\' (parseStrBody fuel cs')
          else if e = '/' then consFst '/' (parseStrBody fuel cs')
          else if e = 'b' then consFst (Char.ofNat 8) (parseStrBody fuel cs')
          else if e = 'f' then consFst (Char.ofNat 12) (parseStrBody fuel cs')
          else if e = 'n' then consFst '\n' (parseStrBody fuel cs')
          else if e = 'r' then consFst (Char.ofNat 13) (parseStrBody fuel cs')
          else if e = 't' then consFst '\t' (parseStrBody fuel cs')
          else if e = 'u' then
            match parseHex4 cs' with
            | none => none
            | some (v, r1) =>
              if 0xD800 ≤ v ∧ v ≤ 0xDBFF then
                match r1 with
                | u :: w :: r2 =>
                  if u = '\\' ∧ w = 'u' then
                    match parseHex4 r2 with
                    | some (v2, r3) =>
                      if 0xDC00 ≤ v2 ∧ v2 ≤ 0xDFFF then
                        consFst (Char.ofNat (0x10000 + (v - 0xD800) * 0x400 + (v2 - 0xDC00)))
                          (parseStrBody fuel r3)
                      else consFst replChar (parseStrBody fuel r1)
                    | none => consFst replChar (parseStrBody fuel r1)
                  else consFst replChar (parseStrBody fuel r1)
                | _ => consFst replChar (parseStrBody fuel r1)
              else if 0xDC00 ≤ v ∧ v ≤ 0xDFFF then consFst replChar (parseStrBody fuel r1)
              else consFst (Char.ofNat v) (parseStrBody fuel r1)
          else none
      else if c.toNat < 0x20 then none
      else consFst c (parseStrBody fuel cs)

/-- Lexes a JSON number.  Lenient at the tail (a malformed tail like `1.` is
left unconsumed, which makes the surrounding strict parse fail exactly as
`JSON.parse` would). -/
def parseNumberLex (s : Str) : Option (Str × Str) :=
  let p : Str × Str :=
    match s with
    | c :: cs => if c = '-' then ([c], cs) else ([], s)
    | [] => ([], [])
  let sign := p.1
  let s1 := p.2
  match s1 with
  | [] => none
  | c :: _ =>
    if c.isDigit then
      let ip := s1.takeWhile Char.isDigit
      let r1 := s1.dropWhile Char.isDigit
      let q : Str × Str :=
        match r1 with
        | d :: ds =>
          if d = '.' ∧ (ds.headD ' ').isDigit then
            ([d] ++ ds.takeWhile Char.isDigit, ds.dropWhile Char.isDigit)
          else ([], r1)
        | [] => ([], r1)
      let fp := q.1
      let r2 := q.2
      let w : Str × Str :=
        match r2 with
        | e :: es =>
          if e = 'e' ∨ e = 'E' then
            match es with
            | g :: gs =>
              if g = '+' ∨ g = '-' then
                if (gs.headD ' ').isDigit then
                  ([e, g] ++ gs.takeWhile Char.isDigit, gs.dropWhile Char.isDigit)
                else ([], r2)
              else if g.isDigit then
                ([e] ++ es.takeWhile Char.isDigit, es.dropWhile Char.isDigit)
              else ([], r2)
            | [] => ([], r2)
          else ([], r2)
        | [] => ([], r2)
      some (sign ++ ip ++ fp ++ w.1, w.2)
    else none

mutual

/-- Recursive descent for one JSON value, fuelled (the fuel passed by
`jsonParse` is ample for any input, so exhaustion never fires there). -/
def parseVal : Nat → Str → Option (Json × Str)
  | 0, _ => none
  | fuel + 1, s =>
    match s with
    | [] => none
    | c :: cs =>
      if c = '"' then
        match parseStrBody (fuel + 1) cs with
        | some (t, r) => some (Json.strv t, r)
        | none => none
      else if c = '[' then
        match skipWs cs with
        | d :: ds =>
          if d = ']' then some (Json.arr [], ds)
          else
            match parseItems fuel (skipWs cs) with
            | some (xs, r) => some (Json.arr xs, r)
            | none => none
        | [] => none
      else if c = Char.ofNat 123 then
        match skipWs cs with
        | d :: ds =>
          if d = Char.ofNat 125 then some (Json.obj [], ds)
          else
            match parseFields fuel (skipWs cs) with
            | some (fs, r) => some (Json.obj fs, r)
            | none => none
        | [] => none
      else if (str "null").isPrefixOf s then some (Json.null, s.drop 4)
      else if (str "true").isPrefixOf s then some (Json.bool true, s.drop 4)
      else if (str "false").isPrefixOf s then some (Json.bool false, s.drop 5)
      else
        match parseNumberLex s with
        | some (lx, r) => some (Json.num lx, r)
        | none => none

def parseItems : Nat → Str → Option (List Json × Str)
  | 0, _ => none
  | fuel + 1, s =>
    match parseVal fuel (skipWs s) with
    | none => none
    | some (v, r) =>
      match skipWs r with
      | c :: cs =>
        if c = ',' then
          match parseItems fuel cs with
          | some (xs, r') => some (v :: xs, r')
          | none => none
        else if c = ']' then some ([v], cs)
        else none
      | [] => none

def parseFields : Nat → Str → Option (List (Str × Json) × Str)
  | 0, _ => none
  | fuel + 1, s =>
    match skipWs s with
    | c :: cs =>
      if c = '"' then
        match parseStrBody (fuel + 1) cs with
        | none => none
        | some (k, r) =>
          match skipWs r with
          | d :: ds =>
            if d = ':' then
              match parseVal fuel (skipWs ds) with
              | none => none
              | some (v, r') =>
                match skipWs r' with
                | e :: es =>
                  if e = ',' then
                    match parseFields fuel es with
                    | some (fs, r'') => some ((k, v) :: fs, r'')
                    | none => none
                  else if e = Char.ofNat 125 then some ([(k, v)], es)
                  else none
                | [] => none
            else none
          | [] => none
      else none
    | [] => none

end

/-- Models `JSON.parse` (strict: rejects trailing input). -/
def jsonParse (s : Str) : Option Json :=
  match parseVal (2 * s.length + 2) (skipWs s) with
  | some (v, r) => if skipWs r = [] then some v else none
  | none => none

/-- JS object property lookup; `JSON.parse` lets a later duplicate key
overwrite an earlier one, hence the reverse search. -/
def lookupField (fs : List (Str × Json)) (k : Str) : Option Json :=
  match fs.reverse.find? (fun p => p.1 = k) with
  | some p => some p.2
  | none => none

/-- `v.choices` / `.delta` / `.content` property access; on non-objects JS
yields `undefined` (and throws on `null`, which `handleSend`'s `catch`-and-skip
makes observationally identical to `undefined` here). -/
def jsGetProp : Json → Str → Option Json
  | Json.obj fs, k => lookupField fs k
  | _, _ => none

/-- `?.[0]`: element 0 of an array, a one-character string of a string, or the
property named `0` of an object. -/
def jsIndex0 : Json → Option Json
  | Json.arr (x :: _) => some x
  | Json.arr [] => none
  | Json.strv (c :: _) => some (Json.strv [c])
  | Json.strv [] => none
  | Json.obj fs => lookupField fs (str "0")
  | _ => none

/-- `parsed.choices?.[0]?.delta?.content` for `parsed = JSON.parse jsonStr`
(AIChat.tsx lines 90-91); `none` covers both a parse failure and a missing
field, each of which the code skips. -/
def extractContent (p : Str) : Option Json :=
  match jsonParse p with
  | none => none
  | some parsed =>
    ((jsGetProp parsed (str "choices")).bind jsIndex0).bind
      (fun x => (jsGetProp x (str "delta")).bind (fun d => jsGetProp d (str "content")))

/-- Whether the mantissa of a number lexeme is zero (all JS zero spellings:
`0`, `-0`, `0.000`, `0e9`, ...). -/
def numIsZero (lx : Str) : Bool :=
  ((lx.takeWhile (fun c => ¬ (c = 'e' ∨ c = 'E'))).filter Char.isDigit).all (fun c => c = '0')

/-- JS truthiness of a `JSON.parse` result, for `if (content)`. -/
def jsTruthy : Json → Bool
  | Json.null => false
  | Json.bool b => b
  | Json.strv [] => false
  | Json.strv (_ :: _) => true
  | Json.num lx => !numIsZero lx
  | Json.arr _ => true
  | Json.obj _ => true

mutual

/-- String coercion applied by `assistantMessage += content` when `content` is
not itself a string.  Numbers render as their lexeme (JS's exact double
formatting is not modelled; the verified claims only involve string deltas). -/
def jsToString : Json → Str
  | Json.null => str "null"
  | Json.bool true => str "true"
  | Json.bool false => str "false"
  | Json.num lx => lx
  | Json.strv s => s
  | Json.arr xs => jsToStringList xs
  | Json.obj _ => str "[object Object]"

def jsToStringList : List Json → Str
  | [] => []
  | x :: xs =>
    let t : Str :=
      match x with
      | Json.null => []
      | v => jsToString v
    match xs with
    | [] => t
    | _ :: _ => t ++ [','] ++ jsToStringList xs

end

/- ------------------------------------------------------------------ -/
/- Event frame parsing and delta accumulation (AIChat.tsx 67-111)     -/
/- ------------------------------------------------------------------ -/

/-- `buffer.indexOf("\n")` / `slice` pair: the first complete line and the rest
of the buffer, or `none` when no newline is present. -/
def splitLine : Str → Option (Str × Str)
  | [] => none
  | c :: cs =>
    if c = '\n' then some ([], cs)
    else
      match splitLine cs with
      | none => none
      | some (l, r) => some (c :: l, r)

theorem splitLine_rest_length :
    ∀ (buf l r : Str), splitLine buf = some (l, r) → r.length < buf.length := by
  intro buf
  induction buf with
  | nil => intro l r h; simp [splitLine] at h
  | cons c cs ih =>
    intro l r h
    simp only [splitLine] at h
    split at h
    · cases h; simp
    · cases hs : splitLine cs with
      | none => rw [hs] at h; cases h
      | some p =>
        rw [hs] at h
        cases h
        have := ih p.1 p.2 (by rw [hs])
        simpa using Nat.lt_succ_of_lt this

/-- `if (line.endsWith("\r")) line = line.slice(0, -1)`. -/
def stripCR (l : Str) : Str :=
  if l.getLast? = some (Char.ofNat 13) then l.dropLast else l

/-- The two mutable accumulators of the streaming loop: `assistantMessage` and
the rendered turn list (`messages`). -/
structure StreamAcc where
  assistantMessage : Str
  messages : List Message
deriving DecidableEq, Repr

/-- The `setMessages` updater of AIChat.tsx lines 94-105: coalesce into a
trailing assistant turn, else append a new assistant turn. -/
def pushAssistant (msgs : List Message) (full : Str) : List Message :=
  match msgs.getLast? with
  | some m =>
    if m.role = Role.assistant then msgs.dropLast ++ [⟨Role.assistant, full⟩]
    else msgs ++ [⟨Role.assistant, full⟩]
  | none => msgs ++ [⟨Role.assistant, full⟩]

/-- Processing of one Data payload (AIChat.tsx lines 89-109): parse, extract
the delta, and on a truthy delta extend `assistantMessage` and re-render. -/
def deltaStep (acc : StreamAcc) (payload : Str) : StreamAcc :=
  match extractContent payload with
  | some v =>
    if jsTruthy v then
      let am := acc.assistantMessage ++ jsToString v
      ⟨am, pushAssistant acc.messages am⟩
    else acc
  | none => acc

def dataMarker : Str := str "data: "

def doneLit : Str := str "[DONE]"

/-- The inner `while ((newlineIndex = buffer.indexOf("\n")) !== -1)` loop of
AIChat.tsx lines 78-110 on the current buffer.  Returns the Data payloads
handed to the delta accumulator (in order), the leftover buffer, and the
updated accumulator.  `jsonStr === "[DONE]"` executes `break`, which leaves the
rest of the buffer unconsumed for this pass. -/
def processBufGo : Nat → Str → StreamAcc → List Str × Str × StreamAcc
  | 0, buf, acc => ([], buf, acc)
  | fuel + 1, buf, acc =>
    match splitLine buf with
    | none => ([], buf, acc)
    | some (line0, rest) =>
      let line := stripCR line0
      if (str ":").isPrefixOf line ∨ jsTrim line = [] then processBufGo fuel rest acc
      else if ¬ (dataMarker.isPrefixOf line) then processBufGo fuel rest acc
      else
        let jsonStr := jsTrim (line.drop 6)
        if jsonStr = doneLit then ([], rest, acc)
        else
          let acc2 := deltaStep acc jsonStr
          let r := processBufGo fuel rest acc2
          (jsonStr :: r.1, r.2.1, r.2.2)

def processBuf (buf : Str) (acc : StreamAcc) : List Str × Str × StreamAcc :=
  processBufGo buf.length buf acc

theorem processBufGo_fuel :
    ∀ (fuel : Nat) (buf : Str) (acc : StreamAcc), buf.length ≤ fuel →
      processBufGo fuel buf acc = processBufGo buf.length buf acc := by
  intro fuel
  induction fuel using Nat.strong_induction_on with
  | _ fuel IH =>
    intro buf acc hlen
    cases buf with
    | nil =>
      cases fuel with
      | zero => rfl
      | succ f => simp [processBufGo, splitLine]
    | cons c cs =>
      cases fuel with
      | zero => simp at hlen
      | succ f =>
        have hlen' : cs.length ≤ f := by simpa using hlen
        show processBufGo (f + 1) (c :: cs) acc = processBufGo (cs.length + 1) (c :: cs) acc
        simp only [processBufGo]
        cases hsp : splitLine (c :: cs) with
        | none => rfl
        | some p =>
          obtain ⟨line0, rest⟩ := p
          have hr : rest.length ≤ cs.length := by
            have := splitLine_rest_length (c :: cs) line0 rest hsp
            simpa using Nat.lt_succ_iff.mp this
          have e1 : ∀ ac, processBufGo f rest ac = processBufGo rest.length rest ac :=
            fun ac => IH f (Nat.lt_succ_self f) rest ac (le_trans hr hlen')
          have e2 : ∀ ac, processBufGo cs.length rest ac = processBufGo rest.length rest ac :=
            fun ac => IH cs.length (Nat.lt_succ_of_le hlen') rest ac hr
          simp only [e1, e2]

/-- The one-step unfolding of the line loop, used by all reasoning below. -/
theorem processBuf_eq (buf : Str) (acc : StreamAcc) :
    processBuf buf acc =
      match splitLine buf with
      | none => ([], buf, acc)
      | some (line0, rest) =>
        let line := stripCR line0
        if (str ":").isPrefixOf line ∨ jsTrim line = [] then processBuf rest acc
        else if ¬ (dataMarker.isPrefixOf line) then processBuf rest acc
        else
          let jsonStr := jsTrim (line.drop 6)
          if jsonStr = doneLit then ([], rest, acc)
          else
            let acc2 := deltaStep acc jsonStr
            let r := processBuf rest acc2
            (jsonStr :: r.1, r.2.1, r.2.2) := by
  cases buf with
  | nil => rfl
  | cons c cs =>
    show processBufGo (cs.length + 1) (c :: cs) acc = _
    simp only [processBufGo]
    cases hsp : splitLine (c :: cs) with
    | none => rfl
    | some p =>
      obtain ⟨line0, rest⟩ := p
      have hr : rest.length ≤ cs.length := by
        have := splitLine_rest_length (c :: cs) line0 rest hsp
        simpa using Nat.lt_succ_iff.mp this
      have e2 : ∀ ac, processBufGo cs.length rest ac = processBufGo rest.length rest ac :=
        fun ac => processBufGo_fuel cs.length rest ac hr
      simp only [e2]
      rfl

/-- Whole-stream state: the `TextDecoder`'s deferred bytes, the line `buffer`,
the payloads handed to the accumulator so far (instrumentation used to state
the chunking-invariance property), and the accumulator. -/
structure SState where
  pending : List Nat
  buffer : Str
  payloads : List Str
  acc : StreamAcc
deriving Repr

/-- One iteration of the outer `while (true)` read loop (AIChat.tsx 71-111):
decode the arrived bytes, append to the buffer, and run the line loop. -/
def feedChunk (s : SState) (chunk : List Nat) : SState :=
  let d := utf8DecLoop s.pending chunk
  let r := processBuf (s.buffer ++ d.1) s.acc
  { pending := d.2, buffer := r.2.1, payloads := s.payloads ++ r.1, acc := r.2.2 }

/-- Consuming an entire response body delivered as `chunks`, starting from the
turn list `msgs0` (the list that already ends with the optimistic user turn). -/
def runStream (msgs0 : List Message) (chunks : List (List Nat)) : SState :=
  chunks.foldl feedChunk ⟨[], [], [], ⟨[], msgs0⟩⟩

/-- Payload list the decoder + frame parser hand to the accumulator for a given
byte-chunk sequence. -/
def streamPayloads (chunks : List (List Nat)) : List Str :=
  (runStream [] chunks).payloads

/-- The `catch` handler's turn-list rollback (AIChat.tsx line 139):
`setMessages(prev => prev.slice(0, -1))`. -/
def rollbackOnError (msgs : List Message) : List Message := msgs.dropLast

/- ------------------------------------------------------------------ -/
/- Action extractor (AIChat.tsx 113-130)                               -/
/- ------------------------------------------------------------------ -/

def actionsLit : Str := str "\"actions\""

/-- Models `assistantMessage.match(/\x7b[\s\S]*"actions"[\s\S]*\x7d/)`: the
leftmost opening brace from which the pattern can match, paired with the
rightmost closing brace reachable from it (both `[\s\S]*` are greedy). -/
def actionMatch (s : Str) : Option Str :=
  let n := s.length
  let openB := Char.ofNat 123
  let closeB := Char.ofNat 125
  let eligible : Nat → Bool := fun i =>
    (List.range n).any (fun j =>
      decide (i + 1 ≤ j) && actionsLit.isPrefixOf (s.drop j) &&
        (List.range n).any (fun k => decide (j + 9 ≤ k) && decide (s.getD k ' ' = closeB)))
  match ((List.range n).filter (fun i => decide (s.getD i ' ' = openB) && eligible i)).head? with
  | none => none
  | some i =>
    match ((List.range n).filter (fun k =>
        decide (s.getD k ' ' = closeB) &&
          (List.range n).any (fun j =>
            decide (i + 1 ≤ j) && decide (j + 9 ≤ k) &&
              actionsLit.isPrefixOf (s.drop j)))).getLast? with
    | none => none
    | some k => some ((s.drop i).take (k + 1 - i))

/-- AIChat.tsx lines 115-118: regex match, `JSON.parse`, then the
`parsed.actions && Array.isArray(parsed.actions)` gate.  Yields the `actions`
array when every stage succeeds. -/
def parsedActionsArray (msg : Str) : Option (List Json) :=
  match actionMatch msg with
  | none => none
  | some sub =>
    match jsonParse sub with
    | none => none
    | some parsed =>
      match jsGetProp parsed (str "actions") with
      | some a =>
        if jsTruthy a then
          match a with
          | Json.arr xs => some xs
          | _ => none
        else none
      | none => none

/-- The elements passed one by one to `onFileAction` by the
`for (const action of parsed.actions)` loop (AIChat.tsx lines 119-121). -/
def dispatchedActions (msg : Str) : List Json :=
  match parsedActionsArray msg with
  | some xs => xs
  | none => []

/-- Comparison definition taken from the spec's words (§4.4): an element is
valid when it carries `type` (one of `create`/`edit`), `path`, `content` and
`language`.  The code has no counterpart of this check. -/
def specValidAction (e : Json) : Bool :=
  (match jsGetProp e (str "type") with
   | some (Json.strv t) => t = str "create" ∨ t = str "edit"
   | _ => false) &&
  (jsGetProp e (str "path")).isSome &&
  (jsGetProp e (str "content")).isSome &&
  (jsGetProp e (str "language")).isSome


/- ------------------------------------------------------------------ -/
/- Helper lemmas                                                       -/
/- ------------------------------------------------------------------ -/

theorem insertByPath_perm (r : FileRecord) (l : List FileRecord) :
    (insertByPath r l).Perm (r :: l) := by
  induction l with
  | nil => simp [insertByPath]
  | cons x xs ih =>
    simp only [insertByPath]
    split
    · exact List.Perm.refl _
    · exact ((ih.cons x).trans (List.Perm.swap r x xs))

theorem sortByPath_perm (l : List FileRecord) : (sortByPath l).Perm l := by
  induction l with
  | nil => simp [sortByPath]
  | cons x xs ih => exact (insertByPath_perm x (sortByPath xs)).trans (ih.cons x)

theorem mem_sortByPath {r : FileRecord} {l : List FileRecord} :
    r ∈ sortByPath l ↔ r ∈ l :=
  (sortByPath_perm l).mem_iff

/-- Number of persisted records carrying a given path. -/
def pathCount (db : List FileRecord) (p : Str) : Nat :=
  (db.filter (fun r => r.path = p)).length

theorem pathCount_append (db1 db2 : List FileRecord) (p : Str) :
    pathCount (db1 ++ db2) p = pathCount db1 p + pathCount db2 p := by
  simp [pathCount, List.filter_append]

theorem pathCount_map_pathPreserving (db : List FileRecord) (p : Str)
    (φ : FileRecord → FileRecord) (hφ : ∀ r, (φ r).path = r.path) :
    pathCount (db.map φ) p = pathCount db p := by
  unfold pathCount
  rw [List.filter_map]
  have : (fun r => decide (r.path = p)) ∘ φ = fun r => decide (r.path = p) := by
    funext r; simp [hφ]
  rw [this, List.length_map]

theorem pathCount_eq_zero {db : List FileRecord} {p : Str}
    (h : ∀ r ∈ db, r.path ≠ p) : pathCount db p = 0 := by
  unfold pathCount
  rw [List.length_eq_zero, List.filter_eq_nil]
  intro r hr
  simpa using h r hr

theorem pathCount_eq_one_of_nodup {db : List FileRecord} {r : FileRecord}
    (hnd : (db.map FileRecord.path).Nodup) (hr : r ∈ db) :
    pathCount db r.path = 1 := by
  induction db with
  | nil => cases hr
  | cons x xs ih =>
    simp only [List.map_cons, List.nodup_cons] at hnd
    rcases List.mem_cons.mp hr with h | h
    · subst h
      have hz : pathCount xs r.path = 0 := by
        apply pathCount_eq_zero
        intro y hy hcontra
        exact hnd.1 (by rw [← hcontra]; exact List.mem_map_of_mem _ hy)
      simp [pathCount, List.filter_cons, hz] at hz ⊢
      simpa [pathCount] using hz
    · have hx : x.path ≠ r.path := by
        intro hcontra
        exact hnd.1 (by rw [hcontra]; exact List.mem_map_of_mem _ h)
      have := ih hnd.2 h
      simpa [pathCount, List.filter_cons, hx] using this

theorem unique_path_mem {db : List FileRecord} {r1 r2 : FileRecord}
    (hnd : (db.map FileRecord.path).Nodup) (h1 : r1 ∈ db) (h2 : r2 ∈ db)
    (hp : r1.path = r2.path) : r1 = r2 :=
  List.inj_on_of_nodup_map hnd h1 h2 hp

/- ------------------------------------------------------------------ -/
/- C8                                                                  -/
/- ------------------------------------------------------------------ -/

/-- C8: the full reload replaces the local file view wholesale with the sorted
authoritative snapshot, and reloading is idempotent: any consecutive
repetition of `loadFiles` (no matter which of the two triggers requested it)
equals a single run. -/
theorem loadFiles_wholesale_idempotent :
    (∀ s : EditorState, (loadFiles s).files = sortByPath s.db) ∧
    (∀ s : EditorState, loadFiles (loadFiles s) = loadFiles s) ∧
    (∀ (s : EditorState) (n : Nat), loadFiles^[n + 1] s = loadFiles s) := by
  have hw : ∀ s : EditorState, (loadFiles s).files = sortByPath s.db := by
    intro s; simp [loadFiles]
  have hi : ∀ s : EditorState, loadFiles (loadFiles s) = loadFiles s := by
    intro s
    cases hsel : s.selectedFile with
    | some f => simp [loadFiles, hsel]
    | none =>
      cases hh : (sortByPath s.db).head? with
      | some g => simp [loadFiles, hsel, hh]
      | none => simp [loadFiles, hsel, hh]
  refine ⟨hw, hi, ?_⟩
  intro s n
  induction n with
  | zero => simp
  | succ m ih => rw [Function.iterate_succ_apply', ih, hi]

/- ------------------------------------------------------------------ -/
/- C7                                                                  -/
/- ------------------------------------------------------------------ -/

/-- C7: an Edit intent targets the currently selected file and ignores its own
path field (the result is unchanged under any replacement of the path), and
with no selection it leaves the persisted collection untouched. -/
theorem edit_targets_selection_ignores_path (a : FileAction) (s : EditorState)
    (ht : a.type = str "edit") :
    (s.selectedFile = none → (handleFileAction a s).db = s.db) ∧
    (∀ f, s.selectedFile = some f →
      (handleFileAction a s).db =
        s.db.map (fun r => if r.id = f.id then { r with content := a.content } else r)) ∧
    (∀ p, handleFileAction { a with path := p } s = handleFileAction a s) := by
  have hne : ¬ (a.type = str "create") := by rw [ht]; decide
  refine ⟨?_, ?_, ?_⟩
  · intro hsel
    simp only [handleFileAction]
    rw [if_neg hne, if_pos ht, hsel]
    simp [loadFiles]
  · intro f hsel
    simp only [handleFileAction]
    rw [if_neg hne, if_pos ht, hsel]
    simp [loadFiles]
  · intro p
    have hne' : ¬ (({ a with path := p } : FileAction).type = str "create") := hne
    have ht' : ({ a with path := p } : FileAction).type = str "edit" := ht
    simp only [handleFileAction]
    rw [if_neg hne, if_pos ht, if_neg hne]

theorem edit_targets_selection_ignores_path_witness :
    (handleFileAction ⟨str "edit", str "b.js", str "new", str "javascript"⟩
      ⟨[⟨1, str "a.js", str "v1", str "javascript"⟩], [⟨1, str "a.js", str "v1", str "javascript"⟩],
        none, 2⟩).db = [⟨1, str "a.js", str "v1", str "javascript"⟩] :=
  (edit_targets_selection_ignores_path _ _ rfl).1 rfl

/- ------------------------------------------------------------------ -/
/- C10                                                                 -/
/- ------------------------------------------------------------------ -/

def dummyRecord : FileRecord := ⟨0, [], [], []⟩

/-- C10: applying an Edit intent with a file selected writes only the content
field of the selected record — its language keeps the previous value even
though the intent carries one — and every record with a different id is
untouched. -/
theorem edit_writes_only_selected_content (a : FileAction) (s : EditorState)
    (f : FileRecord) (ht : a.type = str "edit") (hsel : s.selectedFile = some f) :
    (handleFileAction a s).db.length = s.db.length ∧
    ∀ i, i < s.db.length →
      ((handleFileAction a s).db.getD i dummyRecord).language
          = (s.db.getD i dummyRecord).language ∧
      ((s.db.getD i dummyRecord).id ≠ f.id →
        (handleFileAction a s).db.getD i dummyRecord = s.db.getD i dummyRecord) ∧
      ((s.db.getD i dummyRecord).id = f.id →
        (handleFileAction a s).db.getD i dummyRecord
          = { s.db.getD i dummyRecord with content := a.content }) := by
  have hdb := (edit_targets_selection_ignores_path a s ht).2.1 f hsel
  rw [hdb]
  constructor
  · simp
  · intro i hi
    have hget : (s.db.map (fun r =>
        if r.id = f.id then { r with content := a.content } else r)).getD i dummyRecord
        = if (s.db.getD i dummyRecord).id = f.id then
            { s.db.getD i dummyRecord with content := a.content }
          else s.db.getD i dummyRecord := by
      rw [List.getD_eq_getElem?_getD, List.getElem?_map,
          List.getElem?_eq_getElem (by simpa using hi)]
      simp [List.getD_eq_getElem?_getD, List.getElem?_eq_getElem hi]
    rw [hget]
    refine ⟨?_, ?_, ?_⟩
    · by_cases hid : (s.db.getD i dummyRecord).id = f.id
      · rw [if_pos hid]
      · rw [if_neg hid]
    · intro hid; rw [if_neg hid]
    · intro hid; rw [if_pos hid]

theorem edit_writes_only_selected_content_witness :
    (handleFileAction ⟨str "edit", str "b.js", str "v2", str "python"⟩
        ⟨[⟨1, str "a.js", str "v1", str "javascript"⟩, ⟨2, str "b.js", str "w", str "html"⟩],
          [⟨1, str "a.js", str "v1", str "javascript"⟩, ⟨2, str "b.js", str "w", str "html"⟩],
          some ⟨1, str "a.js", str "v1", str "javascript"⟩, 3⟩).db.length = 2 :=
  (edit_writes_only_selected_content _ _ _ rfl rfl).1

/- ------------------------------------------------------------------ -/
/- C9                                                                  -/
/- ------------------------------------------------------------------ -/

theorem handleSendStart_noop (s : ChatState)
    (h : jsTrim s.input = [] ∨ s.isLoading = true) :
    handleSendStart s = ⟨s, false⟩ := by
  have h' : jsTrim s.input = [] ∨ (s.isLoading : Prop) := by
    rcases h with h | h
    · exact Or.inl h
    · exact Or.inr (by simp [h])
  unfold handleSendStart
  rw [if_pos h']

theorem handleSendStart_go (s : ChatState)
    (h : ¬ (jsTrim s.input = [] ∨ s.isLoading = true)) :
    handleSendStart s =
      ⟨{ messages := s.messages ++ [⟨Role.user, s.input⟩], input := [], isLoading := true },
        true⟩ := by
  have h' : ¬ (jsTrim s.input = [] ∨ (s.isLoading : Prop)) := by
    intro hc
    rcases hc with hc | hc
    · exact h (Or.inl hc)
    · exact h (Or.inr (by simpa using hc))
  unfold handleSendStart
  rw [if_neg h']

theorem chatStep_flight_inv (p : ChatState × Nat) (e : ChatEvent)
    (h : p.2 = if p.1.isLoading then 1 else 0) :
    (chatStep p e).2 = if (chatStep p e).1.isLoading then 1 else 0 := by
  obtain ⟨s, n⟩ := p
  cases e with
  | send i =>
    simp only [chatStep]
    by_cases hg : jsTrim i = [] ∨ s.isLoading = true
    · simp only [handleSendStart_noop { s with input := i } (by simpa using hg)]
      simpa using h
    · simp only [handleSendStart_go { s with input := i } (by simpa using hg)]
      have hl : s.isLoading = false := by
        cases hlc : s.isLoading
        · rfl
        · exact absurd (Or.inr hlc) hg
      simp [hl] at h
      simp [h]
  | finish =>
    simp only [chatStep]
    by_cases hn : n = 0
    · simpa [hn] using h
    · simp only [if_neg hn]
      simp only at h
      split at h
      · simp [h]
      · omega

theorem chatRun_flight_inv :
    ∀ (evs : List ChatEvent) (p : ChatState × Nat),
      p.2 = (if p.1.isLoading then 1 else 0) →
      (evs.foldl chatStep p).2 = if (evs.foldl chatStep p).1.isLoading then 1 else 0 := by
  intro evs
  induction evs with
  | nil => intro p h; simpa using h
  | cons e es ih =>
    intro p h
    simpa using ih _ (chatStep_flight_inv p e h)

/-- C9: while a stream is in flight or the input is whitespace-only, `handleSend`
is a no-op (no turn appended, input untouched, no request issued), and under the
panel's interleaving semantics at most one stream is ever in flight. -/
theorem send_guard_noop_single_flight :
    (∀ s : ChatState, jsTrim s.input = [] ∨ s.isLoading = true →
      handleSendStart s = ⟨s, false⟩) ∧
    (∀ (s : ChatState) (evs : List ChatEvent), s.isLoading = false →
      (chatRun s evs).2 ≤ 1) := by
  constructor
  · intro s h
    exact handleSendStart_noop s h
  · intro s evs h
    have := chatRun_flight_inv evs (s, 0) (by simp [h])
    rw [chatRun, this]
    split <;> omega

theorem send_guard_noop_single_flight_witness :
    (jsTrim (str "   ") = [] ∨ (false = true)) ∧
    handleSendStart ⟨[], str "   ", false⟩ = ⟨⟨[], str "   ", false⟩, false⟩ ∧
    ((⟨[], [], false⟩ : ChatState).isLoading = false ∧
      (chatRun ⟨[], [], false⟩ [ChatEvent.send (str "hello"), ChatEvent.finish]).2 ≤ 1) :=
  ⟨Or.inl (by decide),
    send_guard_noop_single_flight.1 ⟨[], str "   ", false⟩ (Or.inl (by decide)),
    rfl, send_guard_noop_single_flight.2 ⟨[], [], false⟩ _ rfl⟩

/- ------------------------------------------------------------------ -/
/- C5                                                                  -/
/- ------------------------------------------------------------------ -/

theorem loadFiles_db (s : EditorState) : (loadFiles s).db = s.db := rfl

theorem loadFiles_files (s : EditorState) : (loadFiles s).files = sortByPath s.db := rfl

theorem loadFiles_selected_some (s : EditorState) (f : FileRecord)
    (h : s.selectedFile = some f) : (loadFiles s).selectedFile = some f := by
  simp [loadFiles, h]

theorem handleFileAction_create_found (a : FileAction) (s : EditorState)
    (existing : FileRecord) (ht : a.type = str "create")
    (hfind : s.files.find? (fun f => f.path = a.path) = some existing) :
    handleFileAction a s = loadFiles { s with
      db := s.db.map (fun r => if r.id = existing.id then
        { r with content := a.content, language := a.language } else r)
      selectedFile := some { existing with content := a.content, language := a.language } } := by
  unfold handleFileAction
  rw [if_pos ht, hfind]

theorem handleFileAction_create_new (a : FileAction) (s : EditorState)
    (ht : a.type = str "create")
    (hfind : s.files.find? (fun f => f.path = a.path) = none)
    (hany : s.db.any (fun r => r.path = a.path) = false) :
    handleFileAction a s = loadFiles { s with
      db := s.db ++ [⟨s.nextId, a.path, a.content, a.language⟩]
      nextId := s.nextId + 1
      selectedFile := some ⟨s.nextId, a.path, a.content, a.language⟩ } := by
  unfold handleFileAction
  rw [if_pos ht, hfind, if_neg (by simp [hany])]

/-- C5: a Create intent is an idempotent upsert keyed on path — one
application leaves exactly one record at the intent's path (inserting only
when the path was absent), a second identical application changes nothing in
the store, every record at that path carries the intent's content and
language, and after each application the record at that path is the selected
file. -/
theorem create_upsert_idempotent (a : FileAction) (s : EditorState)
    (ht : a.type = str "create")
    (hsync : s.files = sortByPath s.db)
    (hpaths : (s.db.map FileRecord.path).Nodup)
    (hfresh : ∀ r ∈ s.db, r.id ≠ s.nextId) :
    pathCount (handleFileAction a s).db a.path = 1 ∧
    (handleFileAction a (handleFileAction a s)).db = (handleFileAction a s).db ∧
    (∀ r ∈ (handleFileAction a s).db, r.path = a.path →
      r.content = a.content ∧ r.language = a.language) ∧
    (∃ r1, (handleFileAction a s).selectedFile = some r1 ∧
      r1.path = a.path ∧ r1.content = a.content ∧ r1.language = a.language) ∧
    (∃ r2, (handleFileAction a (handleFileAction a s)).selectedFile = some r2 ∧
      r2.path = a.path ∧ r2.content = a.content ∧ r2.language = a.language) ∧
    ((∀ r ∈ s.db, r.path ≠ a.path) →
      (handleFileAction a s).db = s.db ++ [⟨s.nextId, a.path, a.content, a.language⟩]) := by
  cases hfind : s.files.find? (fun f => f.path = a.path) with
  | none =>
    -- the path is absent from the store
    have hnone : ∀ x ∈ s.db, x.path ≠ a.path := by
      intro x hx
      have := List.find?_eq_none.mp (hsync ▸ hfind) x (mem_sortByPath.mpr hx)
      simpa using this
    have hany : s.db.any (fun r => r.path = a.path) = false := by
      rw [List.any_eq_false]
      intro x hx
      simpa using hnone x hx
    set newRec : FileRecord := ⟨s.nextId, a.path, a.content, a.language⟩ with hnew
    have hs1 := handleFileAction_create_new a s ht hfind hany
    have hdb1 : (handleFileAction a s).db = s.db ++ [newRec] := by rw [hs1, loadFiles_db]
    have hsel1 : (handleFileAction a s).selectedFile = some newRec := by
      rw [hs1]; exact loadFiles_selected_some _ _ rfl
    have hfiles1 : (handleFileAction a s).files = sortByPath (s.db ++ [newRec]) := by
      rw [hs1, loadFiles_files]
    have hcount : pathCount (handleFileAction a s).db a.path = 1 := by
      rw [hdb1, pathCount_append, pathCount_eq_zero hnone]
      simp [pathCount, hnew]
    -- second application finds the freshly inserted record
    have hmem_new : newRec ∈ (handleFileAction a s).db := by rw [hdb1]; simp
    cases hfind2 : (handleFileAction a s).files.find? (fun f => f.path = a.path) with
    | none =>
      exfalso
      have := List.find?_eq_none.mp (by rw [hfiles1] at hfind2; exact hfind2) newRec
        (mem_sortByPath.mpr (by rw [← hdb1] at *; exact hmem_new))
      simp [hnew] at this
    | some r0 =>
      have hr0path : r0.path = a.path := by
        simpa using List.find?_some hfind2
      have hr0mem : r0 ∈ (handleFileAction a s).db := by
        rw [hdb1]
        exact mem_sortByPath.mp (by
          rw [hfiles1] at hfind2
          simpa using List.mem_of_find?_eq_some hfind2)
      have hr0 : r0 = newRec := by
        rw [hdb1] at hr0mem
        rcases List.mem_append.mp hr0mem with h | h
        · exact absurd hr0path (hnone r0 h)
        · simpa using h
      have hs2 := handleFileAction_create_found a (handleFileAction a s) r0 ht hfind2
      have hmapid : ((handleFileAction a s).db.map (fun r => if r.id = r0.id then
          { r with content := a.content, language := a.language } else r))
          = (handleFileAction a s).db := by
        rw [hdb1]
        have : ∀ r ∈ s.db ++ [newRec], (fun r => if r.id = r0.id then
            { r with content := a.content, language := a.language } else r) r = id r := by
          intro r hr
          rcases List.mem_append.mp hr with h | h
          · have : r.id ≠ r0.id := by rw [hr0, hnew]; exact hfresh r h
            simp [this]
          · have hr' : r = newRec := by simpa using h
            rw [hr', hr0, hnew]
            simp
        rw [List.map_congr_left this, List.map_id]
      have hdb2 : (handleFileAction a (handleFileAction a s)).db = (handleFileAction a s).db := by
        rw [hs2, loadFiles_db]
        exact hmapid
      have hsel2 : (handleFileAction a (handleFileAction a s)).selectedFile
          = some { r0 with content := a.content, language := a.language } := by
        rw [hs2]; exact loadFiles_selected_some _ _ rfl
      refine ⟨hcount, hdb2, ?_, ⟨newRec, hsel1, by simp [hnew]⟩,
        ⟨{ r0 with content := a.content, language := a.language }, hsel2, by simp [hr0, hnew]⟩,
        fun _ => hdb1⟩
      intro r hr hrpath
      rw [hdb1] at hr
      rcases List.mem_append.mp hr with h | h
      · exact absurd hrpath (hnone r h)
      · have : r = newRec := by simpa using h
        subst this
        simp [hnew]
  | some existing =>
    -- the path is already present: update in place
    have hexpath : existing.path = a.path := by simpa using List.find?_some hfind
    have hexmem : existing ∈ s.db := by
      exact mem_sortByPath.mp (hsync ▸ List.mem_of_find?_eq_some hfind)
    set φ : FileRecord → FileRecord := fun r => if r.id = existing.id then
      { r with content := a.content, language := a.language } else r with hφ
    have hφpath : ∀ r, (φ r).path = r.path := by
      intro r
      by_cases h : r.id = existing.id <;> simp [hφ, h]
    set existing' : FileRecord :=
      { existing with content := a.content, language := a.language } with hex'
    have hs1 := handleFileAction_create_found a s existing ht hfind
    have hdb1 : (handleFileAction a s).db = s.db.map φ := by rw [hs1, loadFiles_db]
    have hsel1 : (handleFileAction a s).selectedFile = some existing' := by
      rw [hs1]; exact loadFiles_selected_some _ _ rfl
    have hfiles1 : (handleFileAction a s).files = sortByPath (s.db.map φ) := by
      rw [hs1, loadFiles_files]
    have hφex : φ existing = existing' := by simp [hφ, hex']
    have hcount : pathCount (handleFileAction a s).db a.path = 1 := by
      rw [hdb1, pathCount_map_pathPreserving _ _ _ hφpath, ← hexpath]
      exact pathCount_eq_one_of_nodup hpaths hexmem
    have hpaths1 : ((s.db.map φ).map FileRecord.path).Nodup := by
      rw [List.map_map]
      have : s.db.map (FileRecord.path ∘ φ) = s.db.map FileRecord.path :=
        List.map_congr_left (fun r _ => hφpath r)
      rw [this]
      exact hpaths
    have hcontentlang : ∀ r ∈ (handleFileAction a s).db, r.path = a.path →
        r.content = a.content ∧ r.language = a.language := by
      intro r hr hrpath
      rw [hdb1] at hr
      rcases List.mem_map.mp hr with ⟨r'', hr''mem, hr''eq⟩
      have hpath'' : r''.path = a.path := by
        rw [← hrpath, ← hr''eq, hφpath]
      have : r'' = existing := unique_path_mem hpaths hr''mem hexmem (hpath''.trans hexpath.symm)
      subst this
      rw [← hr''eq, hφex, hex']
      exact ⟨rfl, rfl⟩
    -- second application
    have hmem' : existing' ∈ (handleFileAction a s).db := by
      rw [hdb1, ← hφex]
      exact List.mem_map_of_mem φ hexmem
    cases hfind2 : (handleFileAction a s).files.find? (fun f => f.path = a.path) with
    | none =>
      exfalso
      have := List.find?_eq_none.mp (by rw [hfiles1] at hfind2; exact hfind2) existing'
        (mem_sortByPath.mpr (hdb1 ▸ hmem'))
      have hp' : existing'.path = a.path := by rw [hex']; exact hexpath
      simp [hp'] at this
      exact this hexpath
    | some r0 =>
      have hr0path : r0.path = a.path := by simpa using List.find?_some hfind2
      have hr0mem : r0 ∈ (handleFileAction a s).db := by
        rw [hfiles1] at hfind2
        exact hdb1 ▸ mem_sortByPath.mp (List.mem_of_find?_eq_some hfind2)
      have hr0 : r0 = existing' := by
        apply unique_path_mem (hdb1 ▸ hpaths1) hr0mem hmem'
        rw [hr0path, hex']
        exact hexpath.symm
      have hs2 := handleFileAction_create_found a (handleFileAction a s) r0 ht hfind2
      have hmapid : ((handleFileAction a s).db.map (fun r => if r.id = r0.id then
          { r with content := a.content, language := a.language } else r))
          = (handleFileAction a s).db := by
        rw [hdb1, List.map_map]
        have : ∀ r ∈ s.db, ((fun r => if r.id = r0.id then
            { r with content := a.content, language := a.language } else r) ∘ φ) r = φ r := by
          intro r _
          by_cases h : r.id = existing.id
          · have : (φ r).id = r0.id := by rw [hr0, hex', hφ]; simp [h]
            simp [Function.comp, this, hφ, h]
          · have : (φ r).id ≠ r0.id := by
              rw [hr0, hex', hφ]
              simpa [h] using h
            simp [Function.comp, this]
        rw [List.map_congr_left this]
      have hdb2 : (handleFileAction a (handleFileAction a s)).db = (handleFileAction a s).db := by
        rw [hs2, loadFiles_db]
        exact hmapid
      have hsel2 : (handleFileAction a (handleFileAction a s)).selectedFile
          = some { r0 with content := a.content, language := a.language } := by
        rw [hs2]; exact loadFiles_selected_some _ _ rfl
      refine ⟨hcount, hdb2, hcontentlang,
        ⟨existing', hsel1, by rw [hex']; exact ⟨hexpath, rfl, rfl⟩⟩,
        ⟨{ r0 with content := a.content, language := a.language }, hsel2,
          by rw [hr0, hex']; exact ⟨hexpath, rfl, rfl⟩⟩,
        ?_⟩
      intro hnone
      exact absurd hexpath (hnone existing hexmem)

theorem create_upsert_idempotent_witness :
    pathCount (handleFileAction ⟨str "create", str "a.js", str "v1", str "javascript"⟩
      ⟨[], [], none, 0⟩).db (str "a.js") = 1 ∧
    (handleFileAction ⟨str "create", str "a.js", str "v1", str "javascript"⟩
      (handleFileAction ⟨str "create", str "a.js", str "v1", str "javascript"⟩
        ⟨[], [], none, 0⟩)).db =
      (handleFileAction ⟨str "create", str "a.js", str "v1", str "javascript"⟩
        ⟨[], [], none, 0⟩).db :=
  ⟨(create_upsert_idempotent _ _ rfl rfl (by simp) (by simp)).1,
    (create_upsert_idempotent _ _ rfl rfl (by simp) (by simp)).2.1⟩

/- ------------------------------------------------------------------ -/
/- C1                                                                  -/
/- ------------------------------------------------------------------ -/

/-- C1 (code bug): `[DONE]` only breaks the inner line loop, not the outer
read loop, so a Data frame delivered in a chunk read after the terminator is
still accumulated: on the two-chunk stream `data: [DONE]` then a `"X"` delta,
the final accumulator contains `"X"` and an assistant turn `"X"` — the spec
requires processing of the stream to end at the terminator. -/
theorem done_terminator_not_honored_bug :
    (runStream [⟨Role.user, str "hi"⟩]
      [utf8Encode (str "data: [DONE]\n"),
       utf8Encode (str "data: \x7b\"choices\":[\x7b\"delta\":\x7b\"content\":\"X\"\x7d\x7d]\x7d\n")]).acc
      = ⟨str "X", [⟨Role.user, str "hi"⟩, ⟨Role.assistant, str "X"⟩]⟩ := by
  rfl

/- ------------------------------------------------------------------ -/
/- C3                                                                  -/
/- ------------------------------------------------------------------ -/

/-- C3 (code bug): the `catch` rollback removes the *last* turn.  After a
delta has already been coalesced into an assistant turn, a failure therefore
removes the assistant turn and leaves the optimistic user turn orphaned — the
code's own comment says it removes the user message, and the spec requires the
sequence not to end with an unanswered user turn. -/
theorem rollback_removes_assistant_turn_bug :
    rollbackOnError ((runStream [⟨Role.user, str "hi"⟩]
        [utf8Encode
          (str "data: \x7b\"choices\":[\x7b\"delta\":\x7b\"content\":\"Hel\"\x7d\x7d]\x7d\n")]).acc.messages)
      = [⟨Role.user, str "hi"⟩] := by
  rfl

/- ------------------------------------------------------------------ -/
/- C2                                                                  -/
/- ------------------------------------------------------------------ -/

/-- C2 (counterexample): an element with none of the required fields is not
dropped — the dispatch loop hands it to the file reconciler as-is. -/
theorem invalid_action_reaches_reconciler_counterexample :
    dispatchedActions (str "Sure! \x7b\"actions\":[\x7b\"foo\":1\x7d]\x7d")
      = [Json.obj [(str "foo", Json.num (str "1"))]] ∧
    specValidAction (Json.obj [(str "foo", Json.num (str "1"))]) = false := by
  exact ⟨rfl, rfl⟩

/-- C2 (amended): no per-element validation exists — every element of a parsed
actions array, valid or not, is handed to the file reconciler; an element
whose `type` is neither `create` nor `edit` is then ignored by the reconciler
(the persisted collection is unchanged), but nothing stops a malformed element
from reaching it. -/
theorem actions_dispatched_unvalidated :
    (∀ (msg : Str) (xs : List Json) (e : Json),
      parsedActionsArray msg = some xs → e ∈ xs → e ∈ dispatchedActions msg) ∧
    (∀ (a : FileAction) (s : EditorState),
      a.type ≠ str "create" → a.type ≠ str "edit" → (handleFileAction a s).db = s.db) := by
  constructor
  · intro msg xs e hp he
    unfold dispatchedActions
    rw [hp]
    exact he
  · intro a s h1 h2
    unfold handleFileAction
    rw [if_neg h1, if_neg h2, loadFiles_db]

theorem actions_dispatched_unvalidated_witness :
    (parsedActionsArray (str "ok \x7b\"actions\":[\x7b\"a\":2\x7d]\x7d")
        = some [Json.obj [(str "a", Json.num (str "2"))]] ∧
      Json.obj [(str "a", Json.num (str "2"))]
        ∈ dispatchedActions (str "ok \x7b\"actions\":[\x7b\"a\":2\x7d]\x7d")) ∧
    ((⟨str "noop", [], [], []⟩ : FileAction).type ≠ str "create" ∧
      (handleFileAction ⟨str "noop", [], [], []⟩ ⟨[], [], none, 0⟩).db = []) :=
  ⟨⟨rfl, actions_dispatched_unvalidated.1 _ _ _ rfl (List.Mem.head _)⟩,
    ⟨by decide, actions_dispatched_unvalidated.2 ⟨str "noop", [], [], []⟩ ⟨[], [], none, 0⟩
      (by decide) (by decide)⟩⟩

/- ------------------------------------------------------------------ -/
/- C6                                                                  -/
/- ------------------------------------------------------------------ -/

/-- Text contributed by one Data payload: the extracted delta when it is
truthy, nothing otherwise. -/
def deltaOf (p : Str) : Str :=
  match extractContent p with
  | some v => if jsTruthy v then jsToString v else []
  | none => []

def concatDeltas (ps : List Str) : Str := (ps.map deltaOf).flatten

/-- Whether any payload of the list contributes a (truthy) delta, i.e. whether
the loop ever executed its `setMessages` branch. -/
def anyAppended (ps : List Str) : Bool :=
  ps.any (fun p =>
    match extractContent p with
    | some v => jsTruthy v
    | none => false)

theorem deltaFold_inv (m0 : List Message)
    (hlast : ∀ m, m0.getLast? = some m → m.role ≠ Role.assistant) :
    ∀ (ps : List Str) (am : Str) (b : Bool),
      ps.foldl deltaStep ⟨am, if b then m0 ++ [⟨Role.assistant, am⟩] else m0⟩ =
        ⟨am ++ concatDeltas ps,
          if b || anyAppended ps then m0 ++ [⟨Role.assistant, am ++ concatDeltas ps⟩]
          else m0⟩ := by
  intro ps
  induction ps with
  | nil =>
    intro am b
    simp [concatDeltas, anyAppended]
  | cons p ps ih =>
    intro am b
    rw [List.foldl_cons]
    have hpush : ∀ x : Str,
        pushAssistant (if b then m0 ++ [⟨Role.assistant, am⟩] else m0) x
          = m0 ++ [⟨Role.assistant, x⟩] := by
      intro x
      cases b with
      | true =>
        simp only [if_pos rfl, pushAssistant, List.getLast?_concat]
        simp
      | false =>
        have hmz : (if (false : Bool) = true then m0 ++ [⟨Role.assistant, am⟩] else m0) = m0 := by
          simp
        rw [hmz]
        simp only [pushAssistant]
        cases hl : m0.getLast? with
        | none => rfl
        | some m =>
          have := hlast m hl
          simp [this]
    cases hx : extractContent p with
    | none =>
      have hstep : deltaStep ⟨am, if b then m0 ++ [⟨Role.assistant, am⟩] else m0⟩ p
          = ⟨am, if b then m0 ++ [⟨Role.assistant, am⟩] else m0⟩ := by
        simp [deltaStep, hx]
      rw [hstep, ih]
      have hd : deltaOf p = [] := by simp [deltaOf, hx]
      simp [concatDeltas, anyAppended, hd, hx]
    | some v =>
      cases htr : jsTruthy v with
      | false =>
        have hstep : deltaStep ⟨am, if b then m0 ++ [⟨Role.assistant, am⟩] else m0⟩ p
            = ⟨am, if b then m0 ++ [⟨Role.assistant, am⟩] else m0⟩ := by
          simp [deltaStep, hx, htr]
        rw [hstep, ih]
        have hd : deltaOf p = [] := by simp [deltaOf, hx, htr]
        simp [concatDeltas, anyAppended, hd, hx, htr]
      | true =>
        have hstep : deltaStep ⟨am, if b then m0 ++ [⟨Role.assistant, am⟩] else m0⟩ p
            = ⟨am ++ jsToString v,
                pushAssistant (if b then m0 ++ [⟨Role.assistant, am⟩] else m0)
                  (am ++ jsToString v)⟩ := by
          simp [deltaStep, hx, htr]
        rw [hstep, hpush]
        have := ih (am ++ jsToString v) true
        simp only [Bool.true_or, eq_self_iff_true, if_true] at this
        rw [this]
        have hd : deltaOf p = jsToString v := by simp [deltaOf, hx, htr]
        simp [concatDeltas, anyAppended, hd, hx, htr, List.append_assoc]

/-- C6: every successfully extracted delta is appended in arrival order, and
the rendered turn list always carries the full accumulated text in one
coalesced trailing assistant turn (appended on the first delta, replaced
afterwards); in particular the `"Hel"`/`"lo"`/`[DONE]` stream produces exactly
one assistant turn `"Hello"`. -/
theorem deltas_coalesce_single_assistant_turn :
    (∀ (ps : List Str) (m0 : List Message),
      (∀ m, m0.getLast? = some m → m.role ≠ Role.assistant) →
      (ps.foldl deltaStep ⟨[], m0⟩).assistantMessage = concatDeltas ps ∧
      (ps.foldl deltaStep ⟨[], m0⟩).messages =
        (if anyAppended ps then m0 ++ [⟨Role.assistant, concatDeltas ps⟩] else m0)) ∧
    (runStream [⟨Role.user, str "hi"⟩]
        [utf8Encode (str ("data: \x7b\"choices\":[\x7b\"delta\":\x7b\"content\":\"Hel\"\x7d\x7d]\x7d\n" ++
          "data: \x7b\"choices\":[\x7b\"delta\":\x7b\"content\":\"lo\"\x7d\x7d]\x7d\n" ++
          "data: [DONE]\n"))]).acc.messages
      = [⟨Role.user, str "hi"⟩, ⟨Role.assistant, str "Hello"⟩] := by
  constructor
  · intro ps m0 hlast
    have := deltaFold_inv m0 hlast ps [] false
    simp only [Bool.false_or, if_neg (by simp : ¬ (false = true)), List.nil_append] at this
    rw [this]
    exact ⟨rfl, rfl⟩
  · rfl

theorem deltas_coalesce_single_assistant_turn_witness :
    (∀ m, ([⟨Role.user, str "q"⟩] : List Message).getLast? = some m →
      m.role ≠ Role.assistant) ∧
    ([str "\x7b\"choices\":[\x7b\"delta\":\x7b\"content\":\"Hel\"\x7d\x7d]\x7d"].foldl
        deltaStep ⟨[], [⟨Role.user, str "q"⟩]⟩).messages
      = [⟨Role.user, str "q"⟩, ⟨Role.assistant, str "Hel"⟩] := by
  have hlast : ∀ m, ([⟨Role.user, str "q"⟩] : List Message).getLast? = some m →
      m.role ≠ Role.assistant := by
    intro m hm
    simp only [List.getLast?_singleton, Option.some.injEq] at hm
    subst hm
    decide
  refine ⟨hlast, ?_⟩
  exact ((deltas_coalesce_single_assistant_turn.1 _ _ hlast).2).trans (by rfl)

/- ------------------------------------------------------------------ -/
/- C4: decoder lemmas                                                  -/
/- ------------------------------------------------------------------ -/

theorem char_toNat_lt (c : Char) : c.toNat < 0x110000 := by
  have h := c.valid
  rcases h with h | h <;> simp only [Char.toNat] <;> omega

theorem stepEmpty_ascii {b : Nat} (h : b < 0x80) : stepEmpty b = ([Char.ofNat b], []) := by
  simp [stepEmpty, h]

theorem stepEmpty_leader {b : Nat} (h1 : 0xC0 ≤ b) (h2 : b < 0xF8) :
    stepEmpty b = ([], [b]) := by
  unfold stepEmpty
  rw [if_neg (by omega), if_neg (by omega), if_pos h2]

theorem isCont_true {b : Nat} (h1 : 0x80 ≤ b) (h2 : b < 0xC0) : isCont b = true := by
  simp [isCont]; omega

theorem stepByte_c2 {l b : Nat} (hl2 : l < 0xE0) (hb1 : 0x80 ≤ b) (hb2 : b < 0xC0) :
    stepByte [l] b = ([Char.ofNat ((l - 0xC0) * 0x40 + (b - 0x80))], []) := by
  simp only [stepByte]
  rw [if_pos (isCont_true hb1 hb2), if_pos hl2]

theorem stepByte_c3a {l b : Nat} (hl1 : 0xE0 ≤ l) (hl2 : l < 0xF0)
    (hb1 : 0x80 ≤ b) (hb2 : b < 0xC0) :
    stepByte [l] b = ([], [l, b]) := by
  simp only [stepByte]
  rw [if_pos (isCont_true hb1 hb2), if_neg (by omega), if_pos hl2]

theorem stepByte_c3b {l c1 b : Nat} (hl1 : 0xE0 ≤ l) (hl2 : l < 0xF0)
    (hb1 : 0x80 ≤ b) (hb2 : b < 0xC0) :
    stepByte [l, c1] b
      = ([Char.ofNat ((l - 0xE0) * 0x1000 + (c1 - 0x80) * 0x40 + (b - 0x80))], []) := by
  simp only [stepByte]
  rw [if_pos (isCont_true hb1 hb2), if_neg (by omega), if_pos hl2]

theorem stepByte_c4a {l b : Nat} (hl1 : 0xF0 ≤ l) (hl2 : l < 0xF8)
    (hb1 : 0x80 ≤ b) (hb2 : b < 0xC0) :
    stepByte [l] b = ([], [l, b]) := by
  simp only [stepByte]
  rw [if_pos (isCont_true hb1 hb2), if_neg (by omega), if_neg (by omega)]

theorem stepByte_c4b {l c1 b : Nat} (hl1 : 0xF0 ≤ l) (hl2 : l < 0xF8)
    (hb1 : 0x80 ≤ b) (hb2 : b < 0xC0) :
    stepByte [l, c1] b = ([], [l, c1, b]) := by
  simp only [stepByte]
  rw [if_pos (isCont_true hb1 hb2), if_neg (by omega), if_neg (by omega)]

theorem stepByte_c4c {l c1 c2 b : Nat} (hl1 : 0xF0 ≤ l) (hl2 : l < 0xF8)
    (hb1 : 0x80 ≤ b) (hb2 : b < 0xC0) :
    stepByte [l, c1, c2] b
      = ([Char.ofNat ((l - 0xF0) * 0x40000 + (c1 - 0x80) * 0x1000 +
          (c2 - 0x80) * 0x40 + (b - 0x80))], []) := by
  simp only [stepByte]
  rw [if_pos (isCont_true hb1 hb2), if_neg (by omega), if_neg (by omega)]

theorem loop_cons (p : List Nat) (b : Nat) (bs : List Nat) :
    utf8DecLoop p (b :: bs)
      = ((stepByte p b).1 ++ (utf8DecLoop (stepByte p b).2 bs).1,
          (utf8DecLoop (stepByte p b).2 bs).2) := rfl

theorem stepByte_nil (b : Nat) : stepByte [] b = stepEmpty b := rfl

/-- Appending byte streams composes through the decoder state. -/
theorem utf8DecLoop_append (a : List Nat) :
    ∀ (p : List Nat) (b : List Nat),
      utf8DecLoop p (a ++ b)
        = ((utf8DecLoop p a).1 ++ (utf8DecLoop (utf8DecLoop p a).2 b).1,
            (utf8DecLoop (utf8DecLoop p a).2 b).2) := by
  induction a with
  | nil => intro p b; simp [utf8DecLoop]
  | cons x xs ih =>
    intro p b
    rw [List.cons_append, loop_cons, loop_cons p x xs, ih]
    simp [List.append_assoc]

/-- Decoding one encoded scalar from a fresh state yields that character. -/
theorem utf8DecLoop_encodeChar (c : Char) (bs : List Nat) :
    utf8DecLoop [] (utf8EncodeChar c ++ bs)
      = (c :: (utf8DecLoop [] bs).1, (utf8DecLoop [] bs).2) := by
  have hlt := char_toNat_lt c
  by_cases h1 : c.toNat < 0x80
  · have henc : utf8EncodeChar c = [c.toNat] := by simp [utf8EncodeChar, h1]
    rw [henc]
    simp only [List.cons_append, List.nil_append]
    rw [loop_cons, stepByte_nil, stepEmpty_ascii h1]
    dsimp only
    rw [Char.ofNat_toNat]
    simp
  · by_cases h2 : c.toNat < 0x800
    · have henc : utf8EncodeChar c
          = [0xC0 + c.toNat / 0x40, 0x80 + c.toNat % 0x40] := by
        simp [utf8EncodeChar, h1, h2]
      rw [henc]
      simp only [List.cons_append, List.nil_append]
      rw [loop_cons, stepByte_nil, stepEmpty_leader (by omega) (by omega)]
      dsimp only
      rw [loop_cons, stepByte_c2 (by omega) (by omega) (by omega)]
      dsimp only
      rw [show (0xC0 + c.toNat / 0x40 - 0xC0) * 0x40 + (0x80 + c.toNat % 0x40 - 0x80)
            = c.toNat from by omega,
          Char.ofNat_toNat]
      simp
    · by_cases h3 : c.toNat < 0x10000
      · have henc : utf8EncodeChar c
            = [0xE0 + c.toNat / 0x1000, 0x80 + (c.toNat / 0x40) % 0x40,
                0x80 + c.toNat % 0x40] := by
          simp [utf8EncodeChar, h1, h2, h3]
        rw [henc]
        simp only [List.cons_append, List.nil_append]
        rw [loop_cons, stepByte_nil, stepEmpty_leader (by omega) (by omega)]
        dsimp only
        rw [loop_cons, stepByte_c3a (by omega) (by omega) (by omega) (by omega)]
        dsimp only
        rw [loop_cons, stepByte_c3b (by omega) (by omega) (by omega) (by omega)]
        dsimp only
        rw [show (0xE0 + c.toNat / 0x1000 - 0xE0) * 0x1000 +
              (0x80 + (c.toNat / 0x40) % 0x40 - 0x80) * 0x40 +
              (0x80 + c.toNat % 0x40 - 0x80) = c.toNat from by omega,
            Char.ofNat_toNat]
        simp
      · have henc : utf8EncodeChar c
            = [0xF0 + c.toNat / 0x40000, 0x80 + (c.toNat / 0x1000) % 0x40,
                0x80 + (c.toNat / 0x40) % 0x40, 0x80 + c.toNat % 0x40] := by
          simp [utf8EncodeChar, h1, h2, h3]
        rw [henc]
        simp only [List.cons_append, List.nil_append]
        rw [loop_cons, stepByte_nil, stepEmpty_leader (by omega) (by omega)]
        dsimp only
        rw [loop_cons, stepByte_c4a (by omega) (by omega) (by omega) (by omega)]
        dsimp only
        rw [loop_cons, stepByte_c4b (by omega) (by omega) (by omega) (by omega)]
        dsimp only
        rw [loop_cons, stepByte_c4c (by omega) (by omega) (by omega) (by omega)]
        dsimp only
        rw [show (0xF0 + c.toNat / 0x40000 - 0xF0) * 0x40000 +
              (0x80 + (c.toNat / 0x1000) % 0x40 - 0x80) * 0x1000 +
              (0x80 + (c.toNat / 0x40) % 0x40 - 0x80) * 0x40 +
              (0x80 + c.toNat % 0x40 - 0x80) = c.toNat from by omega,
            Char.ofNat_toNat]
        simp

/-- Round trip: a complete encoded text decodes to itself from a fresh state,
leaving no pending bytes. -/
theorem utf8DecLoop_encode (t : Str) :
    utf8DecLoop [] (utf8Encode t) = (t, []) := by
  induction t with
  | nil => rfl
  | cons c cs ih =>
    have : utf8Encode (c :: cs) = utf8EncodeChar c ++ utf8Encode cs := by
      simp [utf8Encode]
    rw [this, utf8DecLoop_encodeChar, ih]

/- ------------------------------------------------------------------ -/
/- C4: line-level lemmas                                               -/
/- ------------------------------------------------------------------ -/

theorem splitLine_none {p : Str} (h : ('\n' : Char) ∉ p) : splitLine p = none := by
  induction p with
  | nil => rfl
  | cons c cs ih =>
    have hc : ¬ (c = '\n') := fun hc => h (by simp [hc])
    have hcs : splitLine cs = none := ih (fun hm => h (List.mem_cons_of_mem _ hm))
    simp [splitLine, hc, hcs]

theorem splitLine_line (l r : Str) (h : ('\n' : Char) ∉ l) :
    splitLine (l ++ '\n' :: r) = some (l, r) := by
  induction l with
  | nil => simp [splitLine]
  | cons c cs ih =>
    have hc : ¬ (c = '\n') := fun hcon => h (by simp [hcon])
    have := ih (fun hm => h (List.mem_cons_of_mem _ hm))
    simp [splitLine, hc, this]

theorem splitLine_some_append {A l r : Str} (h : splitLine A = some (l, r)) (Y : Str) :
    splitLine (A ++ Y) = some (l, r ++ Y) := by
  induction A generalizing l r with
  | nil => simp [splitLine] at h
  | cons c cs ih =>
    simp only [List.cons_append, splitLine] at h ⊢
    by_cases hc : c = '\n'
    · rw [if_pos hc] at h ⊢
      cases h
      rfl
    · rw [if_neg hc] at h ⊢
      cases hcs : splitLine cs with
      | none => rw [hcs] at h; cases h
      | some p =>
        rw [hcs] at h
        obtain ⟨l', r'⟩ := p
        cases h
        rw [List.append_eq, ih hcs]

/-- Reference line machine for the proofs: payloads handed on, leftover
buffer, and whether the terminator stopped this pass. -/
def drain3Go : Nat → Str → List Str × Str × Bool
  | 0, buf => ([], buf, false)
  | fuel + 1, buf =>
    match splitLine buf with
    | none => ([], buf, false)
    | some (line0, rest) =>
      let line := stripCR line0
      if (str ":").isPrefixOf line ∨ jsTrim line = [] then drain3Go fuel rest
      else if ¬ (dataMarker.isPrefixOf line) then drain3Go fuel rest
      else
        let jsonStr := jsTrim (line.drop 6)
        if jsonStr = doneLit then ([], rest, true)
        else
          let r := drain3Go fuel rest
          (jsonStr :: r.1, r.2.1, r.2.2)

def drain3 (buf : Str) : List Str × Str × Bool := drain3Go buf.length buf

theorem drain3Go_fuel :
    ∀ (fuel : Nat) (buf : Str), buf.length ≤ fuel →
      drain3Go fuel buf = drain3Go buf.length buf := by
  intro fuel
  induction fuel using Nat.strong_induction_on with
  | _ fuel IH =>
    intro buf hlen
    cases buf with
    | nil =>
      cases fuel with
      | zero => rfl
      | succ f => simp [drain3Go, splitLine]
    | cons c cs =>
      cases fuel with
      | zero => simp at hlen
      | succ f =>
        have hlen' : cs.length ≤ f := by simpa using hlen
        show drain3Go (f + 1) (c :: cs) = drain3Go (cs.length + 1) (c :: cs)
        simp only [drain3Go]
        cases hsp : splitLine (c :: cs) with
        | none => rfl
        | some p =>
          obtain ⟨line0, rest⟩ := p
          have hr : rest.length ≤ cs.length := by
            have := splitLine_rest_length (c :: cs) line0 rest hsp
            simpa using Nat.lt_succ_iff.mp this
          have e1 : drain3Go f rest = drain3Go rest.length rest :=
            IH f (Nat.lt_succ_self f) rest (le_trans hr hlen')
          have e2 : drain3Go cs.length rest = drain3Go rest.length rest :=
            IH cs.length (Nat.lt_succ_of_le hlen') rest hr
          simp only [e1, e2]

/-- One-step unfolding of the reference line machine. -/
theorem drain3_eq (buf : Str) :
    drain3 buf =
      match splitLine buf with
      | none => ([], buf, false)
      | some (line0, rest) =>
        let line := stripCR line0
        if (str ":").isPrefixOf line ∨ jsTrim line = [] then drain3 rest
        else if ¬ (dataMarker.isPrefixOf line) then drain3 rest
        else
          let jsonStr := jsTrim (line.drop 6)
          if jsonStr = doneLit then ([], rest, true)
          else
            let r := drain3 rest
            (jsonStr :: r.1, r.2.1, r.2.2) := by
  cases buf with
  | nil => rfl
  | cons c cs =>
    show drain3Go (cs.length + 1) (c :: cs) = _
    simp only [drain3Go]
    cases hsp : splitLine (c :: cs) with
    | none => rfl
    | some p =>
      obtain ⟨line0, rest⟩ := p
      have hr : rest.length ≤ cs.length := by
        have := splitLine_rest_length (c :: cs) line0 rest hsp
        simpa using Nat.lt_succ_iff.mp this
      have e2 : drain3Go cs.length rest = drain3Go rest.length rest :=
        drain3Go_fuel cs.length rest hr
      simp only [e2]
      rfl

/-- `processBuf` factors through the reference machine: payloads and leftover
do not depend on the accumulator, and the accumulator is the fold of
`deltaStep` over the payloads. -/
theorem processBuf_drain3 :
    ∀ (n : Nat) (buf : Str), buf.length ≤ n → ∀ acc,
      processBuf buf acc
        = ((drain3 buf).1, (drain3 buf).2.1, (drain3 buf).1.foldl deltaStep acc) := by
  intro n
  induction n using Nat.strong_induction_on with
  | _ n IH =>
    intro buf hlen acc
    rw [processBuf_eq, drain3_eq]
    cases hsp : splitLine buf with
    | none => rfl
    | some p =>
      obtain ⟨line0, rest⟩ := p
      have hrlt : rest.length < buf.length := splitLine_rest_length buf line0 rest hsp
      have hrest : rest.length ≤ n - 1 := by omega
      have hlt : n - 1 < n := by omega
      dsimp only
      by_cases hc1 : (str ":").isPrefixOf (stripCR line0) ∨ jsTrim (stripCR line0) = []
      · rw [if_pos hc1, if_pos hc1]
        exact IH (n - 1) hlt rest hrest acc
      · rw [if_neg hc1, if_neg hc1]
        by_cases hc2 : dataMarker.isPrefixOf (stripCR line0)
        · rw [if_neg (not_not_intro hc2), if_neg (not_not_intro hc2)]
          by_cases hc3 : jsTrim ((stripCR line0).drop 6) = doneLit
          · rw [if_pos hc3, if_pos hc3]
            rfl
          · rw [if_neg hc3, if_neg hc3]
            rw [IH (n - 1) hlt rest hrest (deltaStep acc (jsTrim ((stripCR line0).drop 6)))]
            simp
        · rw [if_pos hc2, if_pos hc2]
          exact IH (n - 1) hlt rest hrest acc

theorem append_split {α : Type} {P Q C D : List α} (h : P ++ Q = C ++ D) :
    (∃ R, P = C ++ R ∧ R ++ Q = D) ∨ (∃ R, R ≠ [] ∧ C = P ++ R ∧ Q = R ++ D) := by
  induction C generalizing P with
  | nil => exact Or.inl ⟨P, by simp, by simpa using h⟩
  | cons x cs ih =>
    cases P with
    | nil => exact Or.inr ⟨x :: cs, by simp, by simp, by simpa using h⟩
    | cons p ps =>
      simp only [List.cons_append, List.cons.injEq] at h
      obtain ⟨rfl, h2⟩ := h
      rcases ih h2 with ⟨R, h3, h4⟩ | ⟨R, hne, h3, h4⟩
      · exact Or.inl ⟨R, by simp [h3], h4⟩
      · exact Or.inr ⟨R, hne, by simp [h3], h4⟩

/-- Draining composes across an append as long as the first part did not hit
the terminator: the leftover of the first pass is simply resumed. -/
theorem drain3_append (Y : Str) :
    ∀ (n : Nat) (A : Str), A.length ≤ n → (drain3 A).2.2 = false →
      drain3 (A ++ Y)
        = ((drain3 A).1 ++ (drain3 ((drain3 A).2.1 ++ Y)).1,
            (drain3 ((drain3 A).2.1 ++ Y)).2) := by
  intro n
  induction n using Nat.strong_induction_on with
  | _ n IH =>
    intro A hlen hflag
    cases hsp : splitLine A with
    | none =>
      have hA : drain3 A = ([], A, false) := by rw [drain3_eq, hsp]
      rw [hA]
      simp
    | some p =>
      obtain ⟨line0, rest⟩ := p
      have hrlt : rest.length < A.length := splitLine_rest_length A line0 rest hsp
      have hA := drain3_eq A
      rw [hsp] at hA
      have hAY := drain3_eq (A ++ Y)
      rw [splitLine_some_append hsp Y] at hAY
      dsimp only at hA hAY
      by_cases hc1 : (str ":").isPrefixOf (stripCR line0) ∨ jsTrim (stripCR line0) = []
      · rw [if_pos hc1] at hA hAY
        rw [hA] at hflag ⊢
        rw [hAY]
        exact IH (n - 1) (by omega) rest (by omega) hflag
      · rw [if_neg hc1] at hA hAY
        by_cases hc2 : dataMarker.isPrefixOf (stripCR line0)
        · rw [if_neg (not_not_intro hc2)] at hA hAY
          by_cases hc3 : jsTrim ((stripCR line0).drop 6) = doneLit
          · rw [if_pos hc3] at hA
            rw [hA] at hflag
            simp at hflag
          · rw [if_neg hc3] at hA hAY
            rw [hA] at hflag ⊢
            simp only at hflag
            rw [hAY, IH (n - 1) (by omega) rest (by omega) hflag]
            simp
        · rw [if_pos hc2] at hA hAY
          rw [hA] at hflag ⊢
          rw [hAY]
          exact IH (n - 1) (by omega) rest (by omega) hflag

/- ------------------------------------------------------------------ -/
/- C4: well-formed frame streams                                       -/
/- ------------------------------------------------------------------ -/

/-- The serialized byte-free text of a frame-line sequence (each line followed
by its newline). -/
def renderLines (ls : List Str) : Str := (ls.map (fun l => l ++ ['\n'])).flatten

/-- The line is the terminator frame: a Data line whose trimmed payload is the
`[DONE]` sentinel (exactly the condition on which the stream loop breaks). -/
def IsDoneLine (line0 : Str) : Prop :=
  ¬ ((str ":").isPrefixOf (stripCR line0) = true ∨ jsTrim (stripCR line0) = []) ∧
  dataMarker.isPrefixOf (stripCR line0) = true ∧
  jsTrim ((stripCR line0).drop 6) = doneLit

instance (line0 : Str) : Decidable (IsDoneLine line0) := by
  unfold IsDoneLine
  infer_instance

/-- A well-formed frame stream: no line contains a newline, and a terminator
frame can only be the last frame. -/
def WFLines (ls : List Str) : Prop :=
  (∀ l ∈ ls, ('\n' : Char) ∉ l) ∧
  ∀ i (h : i < ls.length), IsDoneLine (ls.get ⟨i, h⟩) → i + 1 = ls.length

instance (ls : List Str) : Decidable (WFLines ls) := by
  unfold WFLines
  infer_instance

theorem WFLines_tail {l : Str} {ls : List Str} (h : WFLines (l :: ls)) : WFLines ls := by
  refine ⟨fun x hx => h.1 x (List.mem_cons_of_mem _ hx), ?_⟩
  intro i hi hd
  have := h.2 (i + 1) (by simpa using Nat.succ_lt_succ hi) (by simpa using hd)
  simpa using this

/-- In a well-formed stream, a drained prefix that saw the terminator must be
the entire stream, with nothing left in the buffer. -/
theorem drain3_done_prefix :
    ∀ (ls : List Str), WFLines ls →
      ∀ P Q, P ++ Q = renderLines ls → (drain3 P).2.2 = true →
        Q = [] ∧ (drain3 P).2.1 = [] := by
  intro ls
  induction ls with
  | nil =>
    intro _ P Q hPQ hflag
    have hP : P = [] :=
      (List.append_eq_nil.mp (by simpa [renderLines] using hPQ)).1
    subst hP
    simp [drain3, drain3Go] at hflag
  | cons l ls' ih =>
    intro hwf P Q hPQ hflag
    have hren : renderLines (l :: ls') = (l ++ ['\n']) ++ renderLines ls' := by
      simp [renderLines]
    rw [hren] at hPQ
    have hnl : ('\n' : Char) ∉ l := hwf.1 l (List.mem_cons_self _ _)
    rcases append_split hPQ with ⟨R, hP, hR⟩ | ⟨R, hne, hC, hQ⟩
    · -- P covers the whole first line
      have hsplit : splitLine P = some (l, R) := by
        rw [hP, List.append_assoc]
        exact splitLine_line l R hnl
      have hPe := drain3_eq P
      rw [hsplit] at hPe
      dsimp only at hPe
      by_cases hc1 : (str ":").isPrefixOf (stripCR l) ∨ jsTrim (stripCR l) = []
      · rw [if_pos hc1] at hPe
        rw [hPe] at hflag ⊢
        exact ih (WFLines_tail hwf) R Q hR hflag
      · rw [if_neg hc1] at hPe
        by_cases hc2 : dataMarker.isPrefixOf (stripCR l)
        · rw [if_neg (not_not_intro hc2)] at hPe
          by_cases hc3 : jsTrim ((stripCR l).drop 6) = doneLit
          · -- the first line is the terminator: well-formedness makes it last
            have hdone : IsDoneLine l := ⟨hc1, hc2, hc3⟩
            have hlast := hwf.2 0 (by simp) (by simpa using hdone)
            have hls' : ls' = [] := by
              have : ls'.length = 0 := by simpa using hlast.symm
              exact List.eq_nil_of_length_eq_zero this
            subst hls'
            have hRQ : R ++ Q = [] := by simpa [renderLines] using hR
            have hRnil : R = [] := List.append_eq_nil.mp hRQ |>.1
            have hQnil : Q = [] := List.append_eq_nil.mp hRQ |>.2
            rw [if_pos hc3] at hPe
            rw [hPe]
            exact ⟨hQnil, hRnil⟩
          · rw [if_neg hc3] at hPe
            rw [hPe] at hflag ⊢
            simp only at hflag ⊢
            exact ih (WFLines_tail hwf) R Q hR hflag
        · rw [if_pos hc2] at hPe
          rw [hPe] at hflag ⊢
          exact ih (WFLines_tail hwf) R Q hR hflag
    · -- P is a proper prefix of the first line: it contains no newline
      exfalso
      have hlenP : P.length ≤ l.length := by
        have := congrArg List.length hC
        simp at this
        have hRlen : 1 ≤ R.length := by
          cases R with
          | nil => exact absurd rfl hne
          | cons _ _ => simp
        omega
      have hPl : P = l.take P.length := by
        have h2 := congrArg (List.take P.length) hC.symm
        rw [List.take_left, List.take_append_of_le_length hlenP] at h2
        exact h2
      have hnlP : ('\n' : Char) ∉ P := by
        rw [hPl]
        intro hm
        exact hnl (List.mem_of_mem_take hm)
      have : drain3 P = ([], P, false) := by rw [drain3_eq, splitLine_none hnlP]
      rw [this] at hflag
      simp at hflag

/- ------------------------------------------------------------------ -/
/- C4: main theorem                                                    -/
/- ------------------------------------------------------------------ -/

/-- The terminator, if drained from any prefix of the text, ends the text. -/
def DoneOnlyAtEnd (T : Str) : Prop :=
  ∀ P Q, P ++ Q = T → (drain3 P).2.2 = true → Q = [] ∧ (drain3 P).2.1 = []

theorem feedChunk_eq (s : SState) (c : List Nat) :
    feedChunk s c =
      { pending := (utf8DecLoop s.pending c).2
        buffer := (drain3 (s.buffer ++ (utf8DecLoop s.pending c).1)).2.1
        payloads := s.payloads ++ (drain3 (s.buffer ++ (utf8DecLoop s.pending c).1)).1
        acc := (drain3 (s.buffer ++ (utf8DecLoop s.pending c).1)).1.foldl deltaStep s.acc } := by
  simp only [feedChunk]
  rw [processBuf_drain3 (s.buffer ++ (utf8DecLoop s.pending c).1).length _ le_rfl]

theorem runPayloads_eq_batch (T : Str) (hT : DoneOnlyAtEnd T) :
    ∀ (chunks : List (List Nat)) (s : SState) (P tR : Str),
      P ++ tR = T →
      utf8DecLoop s.pending chunks.flatten = (tR, []) →
      s.payloads = (drain3 P).1 →
      s.buffer = (drain3 P).2.1 →
      ((drain3 P).2.2 = true → tR = [] ∧ s.buffer = []) →
      (chunks.foldl feedChunk s).payloads = (drain3 T).1 := by
  intro chunks
  induction chunks with
  | nil =>
    intro s P tR hPT hdec hpay hbuf _
    simp only [List.flatten_nil, utf8DecLoop] at hdec
    have htR : tR = [] := (Prod.mk.injEq _ _ _ _ ▸ hdec) |>.1.symm ▸ rfl
    have : tR = [] := by
      have := congrArg Prod.fst hdec
      simpa using this.symm
    subst this
    rw [List.append_nil] at hPT
    subst hPT
    simpa using hpay
  | cons c cs ih =>
    intro s P tR hPT hdec hpay hbuf hflagimp
    have hflat : (c :: cs).flatten = c ++ cs.flatten := by simp
    rw [hflat, utf8DecLoop_append] at hdec
    have hdec1 := congrArg Prod.fst hdec
    have hdec2 := congrArg Prod.snd hdec
    simp only at hdec1 hdec2
    set tp := (utf8DecLoop s.pending c).1 with htp
    set p' := (utf8DecLoop s.pending c).2 with hp'
    set tR' := (utf8DecLoop p' cs.flatten).1 with htR'
    have hrest : utf8DecLoop p' cs.flatten = (tR', []) := by
      rw [Prod.ext_iff]
      exact ⟨rfl, hdec2⟩
    have htRsplit : tp ++ tR' = tR := hdec1
    rw [List.foldl_cons, feedChunk_eq]
    cases hflag : (drain3 P).2.2 with
    | false =>
      have hcomp := drain3_append tp P.length P le_rfl hflag
      have hP' : (P ++ tp) ++ tR' = T := by
        rw [List.append_assoc, htRsplit]
        exact hPT
      refine ih _ (P ++ tp) tR' hP' hrest ?_ ?_ ?_
      · show s.payloads ++ (drain3 (s.buffer ++ tp)).1 = (drain3 (P ++ tp)).1
        rw [hcomp, hpay, hbuf]
      · show (drain3 (s.buffer ++ tp)).2.1 = (drain3 (P ++ tp)).2.1
        rw [hcomp, hbuf]
      · intro hfl'
        have := hT (P ++ tp) tR' hP' hfl'
        refine ⟨this.1, ?_⟩
        show (drain3 (s.buffer ++ tp)).2.1 = []
        rw [hbuf]
        have : (drain3 ((drain3 P).2.1 ++ tp)).2.1 = (drain3 (P ++ tp)).2.1 := by
          rw [hcomp]
        rw [this]
        exact (hT (P ++ tp) tR' hP' hfl').2
    | true =>
      obtain ⟨htRnil, hbufnil⟩ := hflagimp hflag
      have htpnil : tp = [] := by
        have := htRsplit
        rw [htRnil] at this
        exact (List.append_eq_nil.mp this).1
      have htR'nil : tR' = [] := by
        have := htRsplit
        rw [htRnil] at this
        exact (List.append_eq_nil.mp this).2
      have hbt : s.buffer ++ tp = [] := by rw [hbufnil, htpnil]; rfl
      have hdrainnil : drain3 ([] : Str) = ([], [], false) := rfl
      refine ih _ P tR' (by rw [htR'nil]; rw [htRnil] at hPT; exact hPT) hrest ?_ ?_ ?_
      · show s.payloads ++ (drain3 (s.buffer ++ tp)).1 = (drain3 P).1
        rw [hbt, hdrainnil, hpay]
        simp
      · show (drain3 (s.buffer ++ tp)).2.1 = (drain3 P).2.1
        rw [hbt, hdrainnil, ← hbuf, hbufnil]
      · intro _
        refine ⟨htR'nil, ?_⟩
        show (drain3 (s.buffer ++ tp)).2.1 = []
        rw [hbt, hdrainnil]

/-- C4: for every well-formed frame stream and every partition of its encoded
bytes into chunks — including splits inside a multi-byte character and inside
a line — the decoder plus frame parser hand the delta accumulator the same
ordered list of Data payloads as when all bytes arrive in one chunk. -/
theorem chunk_partition_invariance (lines : List Str) (hwf : WFLines lines)
    (chunks : List (List Nat))
    (hjoin : chunks.flatten = utf8Encode (renderLines lines)) :
    streamPayloads chunks = streamPayloads [chunks.flatten] := by
  have hT : DoneOnlyAtEnd (renderLines lines) := drain3_done_prefix lines hwf
  have main : ∀ (cks : List (List Nat)),
      cks.flatten = utf8Encode (renderLines lines) →
      streamPayloads cks = (drain3 (renderLines lines)).1 := by
    intro cks hck
    unfold streamPayloads runStream
    refine runPayloads_eq_batch (renderLines lines) hT cks _ [] (renderLines lines)
      (by simp) ?_ rfl rfl ?_
    · show utf8DecLoop [] cks.flatten = (renderLines lines, [])
      rw [hck]
      exact utf8DecLoop_encode _
    · intro hfl
      simp [drain3, drain3Go] at hfl
  rw [main chunks hjoin, main [chunks.flatten] (by simpa using hjoin)]

theorem chunk_partition_invariance_witness :
    WFLines [str "data: ß", str "data: [DONE]"] ∧
    ([[100, 97, 116, 97, 58, 32, 195],
      [159, 10, 100, 97, 116, 97, 58, 32, 91, 68, 79, 78, 69, 93, 10]] : List (List Nat)).flatten
      = utf8Encode (renderLines [str "data: ß", str "data: [DONE]"]) ∧
    streamPayloads [[100, 97, 116, 97, 58, 32, 195],
        [159, 10, 100, 97, 116, 97, 58, 32, 91, 68, 79, 78, 69, 93, 10]]
      = streamPayloads [([[100, 97, 116, 97, 58, 32, 195],
          [159, 10, 100, 97, 116, 97, 58, 32, 91, 68, 79, 78, 69, 93, 10]] :
            List (List Nat)).flatten] :=
  ⟨by decide, by decide,
    chunk_partition_invariance [str "data: ß", str "data: [DONE]"] (by decide) _ (by decide)⟩
